import Mathlib

/-!
Verification of the `pakr-iec` formatting library (src/lib.rs).

The library exposes two pure functions, `decimal` and `iec`, formatting a
`u128` as `"{integer}.{digit}{suffix}"` with base-1000 (resp. base-1024)
suffixes.  Both are a while-loop over a scale step `s`, a working value `v`
and a retained digit source `t`, followed by `format!("{}.{}{}", v, t,
MULTS[s])`.  We embed the loops as well-founded recursions on
`MULTS.length - s` (the loop guard contains `s < MULTS.len()`), machine
integers as `Nat` (the code only divides and takes remainders, so no
overflow is possible below `2^128`), and the possibly-panicking array
indexing `MULTS[s]` as `List.get?`, so a function returns `none` exactly
when the Rust code would panic with an index out of bounds.
-/

namespace PakrIec

/-- The decimal suffix table (`MULTS` in `decimal`). -/
def MULTS : List String := ["", "k", "M", "G", "T", "P", "E", "Z", "Y"]

/-- The IEC suffix table (`MULTS` in `iec`). -/
def MULTS_IEC : List String := ["", "ki", "Mi", "Gi", "Ti", "Pi", "Ei", "Zi", "Yi"]

/-- The while-loop of `decimal`:
`while v >= 1000 && s < MULTS.len() { s += 1; t = (v % 1000) / 100; v /= 1000; }`.
Returns the final `(s, v, t)`. -/
def decimalLoop (s v t : Nat) : Nat × Nat × Nat :=
  if 1000 ≤ v ∧ s < MULTS.length then
    decimalLoop (s + 1) (v / 1000) (v % 1000 / 100)
  else
    (s, v, t)
termination_by MULTS.length - s
decreasing_by simp only [MULTS, List.length] at *; omega

/-- Embedding of `decimal(val)`: the body after the loop is
`format!("{}.{}{}", v, t, MULTS[s])`; the indexing is modelled by `get?`,
with `none` standing for the Rust index-out-of-bounds panic. -/
def decimal (val : Nat) : Option String :=
  match decimalLoop 0 val 0 with
  | (s, v, t) => (MULTS.get? s).map fun m => toString v ++ "." ++ toString t ++ m

/-- The while-loop of `iec`:
`while v >= 1024 && s < MULTS.len() { s += 1; t = v % 1024; v /= 1024; }`. -/
def iecLoop (s v t : Nat) : Nat × Nat × Nat :=
  if 1024 ≤ v ∧ s < MULTS_IEC.length then
    iecLoop (s + 1) (v / 1024) (v % 1024)
  else
    (s, v, t)
termination_by MULTS_IEC.length - s
decreasing_by simp only [MULTS_IEC, List.length] at *; omega

/-- Embedding of `iec(val)`: after the loop, `t = 10 * t / 1024;` then
`format!("{}.{}{}", v, t, MULTS[s])`. -/
def iec (val : Nat) : Option String :=
  match iecLoop 0 val 0 with
  | (s, v, t) => (MULTS_IEC.get? s).map fun m => toString v ++ "." ++ toString (10 * t / 1024) ++ m

/-- The scale step `s` that `decimal` ends the loop with. -/
def stepDec (val : Nat) : Nat := (decimalLoop 0 val 0).1

/-- The integer part `v` that `decimal` prints. -/
def intDec (val : Nat) : Nat := (decimalLoop 0 val 0).2.1

/-- The fractional digit `t` that `decimal` prints. -/
def fracDec (val : Nat) : Nat := (decimalLoop 0 val 0).2.2

/-- The scale step `s` that `iec` ends the loop with. -/
def stepIec (val : Nat) : Nat := (iecLoop 0 val 0).1

/-- The integer part `v` that `iec` prints. -/
def intIec (val : Nat) : Nat := (iecLoop 0 val 0).2.1

/-- The fractional digit `10 * t / 1024` that `iec` prints. -/
def fracIec (val : Nat) : Nat := 10 * (iecLoop 0 val 0).2.2 / 1024

/-! ### Loop characterisation lemmas -/

lemma div_div_pow (b w k : Nat) : w / b / b ^ k = w / b ^ (k + 1) := by
  rw [Nat.div_div_eq_div_mul, ← pow_succ']

/-- Running the decimal loop for exactly `n` iterations: if the guard holds
for the first `n` division steps and fails after them (and the table is not
exhausted), the loop returns the step count, quotient and last retained
digit in closed form. -/
lemma decimalLoop_run (n : Nat) : ∀ s v t, (∀ k, k < n → 1000 ≤ v / 1000 ^ k) →
    v / 1000 ^ n < 1000 → s + n ≤ 9 →
    decimalLoop s v t = (s + n, v / 1000 ^ n, if n = 0 then t else v / 1000 ^ (n - 1) % 1000 / 100) := by
  induction n with
  | zero =>
    intro s v t _ hend _
    rw [decimalLoop]
    simp only [pow_zero, Nat.div_one] at hend
    simp [hend, Nat.not_le.mpr hend]
  | succ n ih =>
    intro s v t hlt hend hs
    rw [decimalLoop]
    have h0 : 1000 ≤ v := by simpa using hlt 0 (Nat.succ_pos n)
    have hslen : s < MULTS.length := by simp only [MULTS, List.length]; omega
    rw [if_pos ⟨h0, hslen⟩]
    rw [ih (s + 1) (v / 1000) (v % 1000 / 100)
      (fun k hk => by rw [div_div_pow]; exact hlt (k + 1) (by omega))
      (by rw [div_div_pow]; exact hend) (by omega)]
    have harith : s + 1 + n = s + (n + 1) := by omega
    cases n with
    | zero => simp [harith]
    | succ m =>
      simp only [Nat.succ_ne_zero, if_false, harith, div_div_pow]
      rfl

/-- Exhausting the table in the decimal loop: if the guard's value test holds
through step 9, the loop exits with `s = 9` (because of `s < MULTS.len()`),
and `MULTS[9]` is then out of bounds. -/
lemma decimalLoop_exhaust (n : Nat) : ∀ s v t, (∀ k, k < n → 1000 ≤ v / 1000 ^ k) →
    s + n = 9 →
    decimalLoop s v t = (9, v / 1000 ^ n, if n = 0 then t else v / 1000 ^ (n - 1) % 1000 / 100) := by
  induction n with
  | zero =>
    intro s v t _ hs
    rw [decimalLoop]
    have hns : ¬ s < MULTS.length := by simp only [MULTS, List.length]; omega
    simp [hns, hs]; omega
  | succ n ih =>
    intro s v t hlt hs
    rw [decimalLoop]
    have h0 : 1000 ≤ v := by simpa using hlt 0 (Nat.succ_pos n)
    have hslen : s < MULTS.length := by simp only [MULTS, List.length]; omega
    rw [if_pos ⟨h0, hslen⟩]
    rw [ih (s + 1) (v / 1000) (v % 1000 / 100)
      (fun k hk => by rw [div_div_pow]; exact hlt (k + 1) (by omega))
      (by omega)]
    cases n with
    | zero => simp
    | succ m =>
      simp only [Nat.succ_ne_zero, if_false, div_div_pow]
      rfl

/-- The final working value of the decimal loop is the input divided by
`1000` to the number of iterations performed. -/
lemma decimalLoop_v (s v t : Nat) :
    s ≤ (decimalLoop s v t).1 ∧ (decimalLoop s v t).2.1 = v / 1000 ^ ((decimalLoop s v t).1 - s) := by
  induction s, v, t using decimalLoop.induct with
  | case1 s v t hc ih =>
    rw [decimalLoop, if_pos hc]
    refine ⟨by omega, ?_⟩
    rw [ih.2]
    have h1 : s + 1 ≤ (decimalLoop (s+1) (v/1000) (v % 1000 / 100)).1 := ih.1
    rw [div_div_pow]
    have h2 : (decimalLoop (s+1) (v/1000) (v % 1000 / 100)).1 - (s + 1) + 1
        = (decimalLoop (s+1) (v/1000) (v % 1000 / 100)).1 - s := by omega
    rw [h2]
  | case2 s v t hc =>
    rw [decimalLoop, if_neg hc]
    simp

/-- The decimal loop never pushes the scale step past 9. -/
lemma decimalLoop_le9 (s v t : Nat) (hs : s ≤ 9) : (decimalLoop s v t).1 ≤ 9 := by
  induction s, v, t using decimalLoop.induct with
  | case1 s v t hc ih =>
    rw [decimalLoop, if_pos hc]
    exact ih (by simp only [MULTS, List.length] at hc; omega)
  | case2 s v t hc =>
    rw [decimalLoop, if_neg hc]
    exact hs

/-- The decimal loop's guard is false at its result (terminal state). -/
lemma decimalLoop_post (s v t : Nat) :
    ¬ (1000 ≤ (decimalLoop s v t).2.1 ∧ (decimalLoop s v t).1 < MULTS.length) := by
  induction s, v, t using decimalLoop.induct with
  | case1 s v t hc ih =>
    rw [decimalLoop, if_pos hc]
    exact ih
  | case2 s v t hc =>
    rw [decimalLoop, if_neg hc]
    exact hc

/-- Running the IEC loop for exactly `n` iterations: closed form for the step
count, quotient and last full remainder. -/
lemma iecLoop_run (n : Nat) : ∀ s v t, (∀ k, k < n → 1024 ≤ v / 1024 ^ k) →
    v / 1024 ^ n < 1024 → s + n ≤ 9 →
    iecLoop s v t = (s + n, v / 1024 ^ n, if n = 0 then t else v / 1024 ^ (n - 1) % 1024) := by
  induction n with
  | zero =>
    intro s v t _ hend _
    rw [iecLoop]
    simp only [pow_zero, Nat.div_one] at hend
    simp [hend, Nat.not_le.mpr hend]
  | succ n ih =>
    intro s v t hlt hend hs
    rw [iecLoop]
    have h0 : 1024 ≤ v := by simpa using hlt 0 (Nat.succ_pos n)
    have hslen : s < MULTS_IEC.length := by simp only [MULTS_IEC, List.length]; omega
    rw [if_pos ⟨h0, hslen⟩]
    rw [ih (s + 1) (v / 1024) (v % 1024)
      (fun k hk => by rw [div_div_pow]; exact hlt (k + 1) (by omega))
      (by rw [div_div_pow]; exact hend) (by omega)]
    have harith : s + 1 + n = s + (n + 1) := by omega
    cases n with
    | zero => simp [harith]
    | succ m =>
      simp only [Nat.succ_ne_zero, if_false, harith, div_div_pow]
      rfl

/-- Exhausting the table in the IEC loop: the loop exits with `s = 9`, out of
bounds for `MULTS`. -/
lemma iecLoop_exhaust (n : Nat) : ∀ s v t, (∀ k, k < n → 1024 ≤ v / 1024 ^ k) →
    s + n = 9 →
    iecLoop s v t = (9, v / 1024 ^ n, if n = 0 then t else v / 1024 ^ (n - 1) % 1024) := by
  induction n with
  | zero =>
    intro s v t _ hs
    rw [iecLoop]
    have hns : ¬ s < MULTS_IEC.length := by simp only [MULTS_IEC, List.length]; omega
    simp [hns, hs]; omega
  | succ n ih =>
    intro s v t hlt hs
    rw [iecLoop]
    have h0 : 1024 ≤ v := by simpa using hlt 0 (Nat.succ_pos n)
    have hslen : s < MULTS_IEC.length := by simp only [MULTS_IEC, List.length]; omega
    rw [if_pos ⟨h0, hslen⟩]
    rw [ih (s + 1) (v / 1024) (v % 1024)
      (fun k hk => by rw [div_div_pow]; exact hlt (k + 1) (by omega))
      (by omega)]
    cases n with
    | zero => simp
    | succ m =>
      simp only [Nat.succ_ne_zero, if_false, div_div_pow]
      rfl

/-- The final working value of the IEC loop is the input divided by `1024`
to the number of iterations performed. -/
lemma iecLoop_v (s v t : Nat) :
    s ≤ (iecLoop s v t).1 ∧ (iecLoop s v t).2.1 = v / 1024 ^ ((iecLoop s v t).1 - s) := by
  induction s, v, t using iecLoop.induct with
  | case1 s v t hc ih =>
    rw [iecLoop, if_pos hc]
    refine ⟨by omega, ?_⟩
    rw [ih.2]
    have h1 : s + 1 ≤ (iecLoop (s+1) (v/1024) (v % 1024)).1 := ih.1
    rw [div_div_pow]
    have h2 : (iecLoop (s+1) (v/1024) (v % 1024)).1 - (s + 1) + 1
        = (iecLoop (s+1) (v/1024) (v % 1024)).1 - s := by omega
    rw [h2]
  | case2 s v t hc =>
    rw [iecLoop, if_neg hc]
    simp

/-- The IEC loop never pushes the scale step past 9. -/
lemma iecLoop_le9 (s v t : Nat) (hs : s ≤ 9) : (iecLoop s v t).1 ≤ 9 := by
  induction s, v, t using iecLoop.induct with
  | case1 s v t hc ih =>
    rw [iecLoop, if_pos hc]
    exact ih (by simp only [MULTS_IEC, List.length] at hc; omega)
  | case2 s v t hc =>
    rw [iecLoop, if_neg hc]
    exact hs

/-- The IEC loop's guard is false at its result (terminal state). -/
lemma iecLoop_post (s v t : Nat) :
    ¬ (1024 ≤ (iecLoop s v t).2.1 ∧ (iecLoop s v t).1 < MULTS_IEC.length) := by
  induction s, v, t using iecLoop.induct with
  | case1 s v t hc ih =>
    rw [iecLoop, if_pos hc]
    exact ih
  | case2 s v t hc =>
    rw [iecLoop, if_neg hc]
    exact hc

/-- Bounded suffix lookups succeed, with the `getD` value. -/
lemma MULTS_get_eq (s : Nat) (h : s ≤ 8) : MULTS.get? s = some (MULTS.getD s "") := by
  interval_cases s <;> rfl

/-- Bounded IEC suffix lookups succeed, with the `getD` value. -/
lemma MULTS_IEC_get_eq (s : Nat) (h : s ≤ 8) : MULTS_IEC.get? s = some (MULTS_IEC.getD s "") := by
  interval_cases s <;> rfl

/-- For an in-range input, the decimal loop runs `Nat.find`-many iterations,
landing on the least exponent that brings the value under 1000. -/
lemma decimal_struct (val : Nat) (h : val < 1000 ^ 9) :
    ∃ n ≤ 8, (∀ k, k < n → 1000 ≤ val / 1000 ^ k) ∧ val / 1000 ^ n < 1000 ∧
      decimalLoop 0 val 0 = (n, val / 1000 ^ n, if n = 0 then 0 else val / 1000 ^ (n - 1) % 1000 / 100) := by
  have h8 : val / 1000 ^ 8 < 1000 := by
    rw [Nat.div_lt_iff_lt_mul (by positivity)]
    calc val < 1000 ^ 9 := h
    _ = 1000 * 1000 ^ 8 := by ring
  have hex : ∃ n, val / 1000 ^ n < 1000 := ⟨8, h8⟩
  refine ⟨Nat.find hex, Nat.find_min' hex h8, ?_, Nat.find_spec hex, ?_⟩
  · intro k hk
    exact Nat.le_of_not_lt (Nat.find_min hex hk)
  · have := decimalLoop_run (Nat.find hex) 0 val 0
      (fun k hk => Nat.le_of_not_lt (Nat.find_min hex hk)) (Nat.find_spec hex)
      (by have := Nat.find_min' hex h8; omega)
    simpa using this

/-- For an in-range input, the IEC loop runs `Nat.find`-many iterations,
landing on the least exponent that brings the value under 1024. -/
lemma iec_struct (val : Nat) (h : val < 1024 ^ 9) :
    ∃ n ≤ 8, (∀ k, k < n → 1024 ≤ val / 1024 ^ k) ∧ val / 1024 ^ n < 1024 ∧
      iecLoop 0 val 0 = (n, val / 1024 ^ n, if n = 0 then 0 else val / 1024 ^ (n - 1) % 1024) := by
  have h8 : val / 1024 ^ 8 < 1024 := by
    rw [Nat.div_lt_iff_lt_mul (by positivity)]
    calc val < 1024 ^ 9 := h
    _ = 1024 * 1024 ^ 8 := by ring
  have hex : ∃ n, val / 1024 ^ n < 1024 := ⟨8, h8⟩
  refine ⟨Nat.find hex, Nat.find_min' hex h8, ?_, Nat.find_spec hex, ?_⟩
  · intro k hk
    exact Nat.le_of_not_lt (Nat.find_min hex hk)
  · have := iecLoop_run (Nat.find hex) 0 val 0
      (fun k hk => Nat.le_of_not_lt (Nat.find_min hex hk)) (Nat.find_spec hex)
      (by have := Nat.find_min' hex h8; omega)
    simpa using this

/-- For an out-of-range input, the decimal guard's value test holds through
all nine steps. -/
lemma decimal_big_steps (val : Nat) (h : 1000 ^ 9 ≤ val) :
    ∀ k, k < 9 → 1000 ≤ val / 1000 ^ k := by
  intro k hk
  calc (1000 : Nat) = 1000 ^ 1 := (pow_one 1000).symm
  _ ≤ 1000 ^ (9 - k) := Nat.pow_le_pow_right (by norm_num) (by omega)
  _ = 1000 ^ 9 / 1000 ^ k := (Nat.pow_div (by omega) (by norm_num)).symm
  _ ≤ val / 1000 ^ k := Nat.div_le_div_right h

/-- For an out-of-range input, the IEC guard's value test holds through all
nine steps. -/
lemma iec_big_steps (val : Nat) (h : 1024 ^ 9 ≤ val) :
    ∀ k, k < 9 → 1024 ≤ val / 1024 ^ k := by
  intro k hk
  calc (1024 : Nat) = 1024 ^ 1 := (pow_one 1024).symm
  _ ≤ 1024 ^ (9 - k) := Nat.pow_le_pow_right (by norm_num) (by omega)
  _ = 1024 ^ 9 / 1024 ^ k := (Nat.pow_div (by omega) (by norm_num)).symm
  _ ≤ val / 1024 ^ k := Nat.div_le_div_right h

/-- In-range inputs: everything `decimal` prints, with the numeric bounds. -/
lemma decimal_bundle (val : Nat) (h : val < 1000 ^ 9) :
    stepDec val ≤ 8 ∧ intDec val ≤ 999 ∧ fracDec val ≤ 9 ∧
    decimal val = some (toString (intDec val) ++ "." ++ toString (fracDec val) ++ MULTS.getD (stepDec val) "") := by
  obtain ⟨n, hn8, hall, hend, hloop⟩ := decimal_struct val h
  have hstep : stepDec val = n := by rw [stepDec, hloop]
  have hint : intDec val = val / 1000 ^ n := by rw [intDec, hloop]
  have hfrac : fracDec val = if n = 0 then 0 else val / 1000 ^ (n - 1) % 1000 / 100 := by
    rw [fracDec, hloop]
  refine ⟨by omega, by omega, ?_, ?_⟩
  · rw [hfrac]
    rcases Nat.eq_zero_or_pos n with h0 | h0
    · simp [h0]
    · rw [if_neg (by omega)]
      have : val / 1000 ^ (n - 1) % 1000 ≤ 999 := by omega
      omega
  · rw [decimal, hloop]
    simp only [MULTS_get_eq n hn8, Option.map_some']
    rw [hstep, hint, hfrac]

/-- In-range inputs: everything `iec` prints, with the numeric bounds. -/
lemma iec_bundle (val : Nat) (h : val < 1024 ^ 9) :
    stepIec val ≤ 8 ∧ intIec val ≤ 1023 ∧ (iecLoop 0 val 0).2.2 ≤ 1023 ∧ fracIec val ≤ 9 ∧
    iec val = some (toString (intIec val) ++ "." ++ toString (fracIec val) ++ MULTS_IEC.getD (stepIec val) "") := by
  obtain ⟨n, hn8, hall, hend, hloop⟩ := iec_struct val h
  have hstep : stepIec val = n := by rw [stepIec, hloop]
  have hint : intIec val = val / 1024 ^ n := by rw [intIec, hloop]
  have ht : (iecLoop 0 val 0).2.2 = if n = 0 then 0 else val / 1024 ^ (n - 1) % 1024 := by
    rw [hloop]
  have hfrac : fracIec val = 10 * (if n = 0 then 0 else val / 1024 ^ (n - 1) % 1024) / 1024 := by
    rw [fracIec, hloop]
  have ht1023 : (iecLoop 0 val 0).2.2 ≤ 1023 := by
    rw [ht]
    rcases Nat.eq_zero_or_pos n with h0 | h0
    · simp [h0]
    · rw [if_neg (by omega)]
      have : val / 1024 ^ (n - 1) % 1024 < 1024 := Nat.mod_lt _ (by norm_num)
      omega
  have hfrac9 : fracIec val ≤ 9 := by
    rw [fracIec]
    calc 10 * (iecLoop 0 val 0).2.2 / 1024 ≤ 10 * 1023 / 1024 :=
          Nat.div_le_div_right (Nat.mul_le_mul_left 10 ht1023)
    _ = 9 := by norm_num
  refine ⟨by omega, by omega, ht1023, hfrac9, ?_⟩
  rw [iec, hloop]
  simp only [MULTS_IEC_get_eq n hn8, Option.map_some']
  rw [hstep, hint, hfrac]

/-- Out-of-range inputs make `decimal` hit `MULTS[9]`: the panic case. -/
lemma decimal_eq_none (val : Nat) (h : 1000 ^ 9 ≤ val) : decimal val = none := by
  have hloop := decimalLoop_exhaust 9 0 val 0 (decimal_big_steps val h) (by omega)
  rw [decimal, hloop]
  rfl

/-- Out-of-range inputs make `iec` hit `MULTS[9]`: the panic case. -/
lemma iec_eq_none (val : Nat) (h : 1024 ^ 9 ≤ val) : iec val = none := by
  have hloop := iecLoop_exhaust 9 0 val 0 (iec_big_steps val h) (by omega)
  rw [iec, hloop]
  rfl

/-- String glue: appending the zero digit and the empty suffix yields ".0". -/
lemma str_frac_zero (a : String) : a ++ "." ++ toString (0 : Nat) ++ "" = a ++ ".0" := by
  apply String.ext
  show (a ++ "." ++ "0" ++ "").data = (a ++ ".0").data
  simp [String.data_append]

/-! ### Claim theorems -/

/-- C1 (counterexample): the claim "both `decimal(value)` and `iec(value)`
return a formatted string without any failure condition; table exhaustion is
a silent clamp" is false at the concrete u128 inputs `1000^9` and `1024^9`
(both below `2^128`): the loop guard `s < MULTS.len()` lets `s` reach 9, so
`MULTS[s]` is an out-of-bounds access (a Rust panic), modelled here as
`none`. -/
theorem table_exhaustion_panics :
    1000 ^ 9 < 2 ^ 128 ∧ 1024 ^ 9 < 2 ^ 128 ∧
      decimal (1000 ^ 9) = none ∧ iec (1024 ^ 9) = none :=
  ⟨by norm_num, by norm_num, decimal_eq_none _ le_rfl, iec_eq_none _ le_rfl⟩

/-- C1 (amended): `decimal` returns a formatted string exactly for inputs
below `1000^9`, and `iec` exactly for inputs below `1024^9`; at or above
those bounds the loop exits with `s = 9` and the access `MULTS[9]` is out of
bounds (a panic, modelled as `none`), not a silent clamp. -/
theorem format_total_iff_in_range (val : Nat) :
    ((decimal val).isSome ↔ val < 1000 ^ 9) ∧ ((iec val).isSome ↔ val < 1024 ^ 9) := by
  constructor
  · constructor
    · intro hs
      by_contra hge
      rw [decimal_eq_none val (by omega)] at hs
      simp at hs
    · intro hlt
      rw [(decimal_bundle val hlt).2.2.2]
      rfl
  · constructor
    · intro hs
      by_contra hge
      rw [iec_eq_none val (by omega)] at hs
      simp at hs
    · intro hlt
      rw [(iec_bundle val hlt).2.2.2.2]
      rfl

/-- C2: for `1000 ≤ value < 1000^9`, with `s` the least positive integer
such that `value / 1000^s < 1000`, `decimal value` is
`"{value / 1000^s}.{value / 1000^(s-1) % 1000 / 100}{MULTS[s]}"` — the
fractional digit is the leading digit of the remainder of the final division
step only, since each iteration overwrites `t` before dividing `v`. -/
theorem decimal_closed_form (val s : Nat) (hval : 1000 ≤ val) (hbig : val < 1000 ^ 9)
    (hs : 0 < s) (hend : val / 1000 ^ s < 1000)
    (hleast : ∀ k, 0 < k → k < s → ¬ (val / 1000 ^ k < 1000)) :
    decimal val = some (toString (val / 1000 ^ s) ++ "." ++
      toString (val / 1000 ^ (s - 1) % 1000 / 100) ++ MULTS.getD s "") := by
  have hall : ∀ k, k < s → 1000 ≤ val / 1000 ^ k := by
    intro k hk
    rcases Nat.eq_zero_or_pos k with h0 | h0
    · simpa [h0] using hval
    · exact Nat.le_of_not_lt (hleast k h0 hk)
  have hpows : 1000 ^ s ≤ val := by
    have h1 : 1000 ≤ val / 1000 ^ (s - 1) := hall (s - 1) (by omega)
    rw [Nat.le_div_iff_mul_le (by positivity)] at h1
    have hsucc : (s - 1) + 1 = s := by omega
    calc 1000 ^ s = 1000 ^ ((s - 1) + 1) := by rw [hsucc]
    _ = 1000 * 1000 ^ (s - 1) := pow_succ' 1000 (s - 1)
    _ ≤ val := h1
  have hs8 : s ≤ 8 := by
    by_contra hgt
    have : 1000 ^ 9 ≤ 1000 ^ s := Nat.pow_le_pow_right (by norm_num) (by omega)
    omega
  have hloop := decimalLoop_run s 0 val 0 hall hend (by omega)
  rw [if_neg (by omega : ¬ s = 0)] at hloop
  have hloop' : decimalLoop 0 val 0 = (s, val / 1000 ^ s, val / 1000 ^ (s - 1) % 1000 / 100) := by
    simpa using hloop
  rw [decimal, hloop']
  simp only [MULTS_get_eq s hs8, Option.map_some']

/-- C2 witness: the theorem instantiated at `value = 1100`, `s = 1`. -/
theorem decimal_closed_form_witness :
    decimal 1100 = some (toString (1100 / 1000 ^ 1) ++ "." ++
      toString (1100 / 1000 ^ (1 - 1) % 1000 / 100) ++ MULTS.getD 1 "") :=
  decimal_closed_form 1100 1 (by norm_num) (by norm_num) (by norm_num) (by norm_num)
    (fun k hk hk1 => absurd hk (by omega))

/-- C3: for `1024 ≤ value < 1024^9`, with `s` the least positive integer
such that `value / 1024^s < 1024`, `iec value` is
`"{value / 1024^s}.{10 * (value / 1024^(s-1) % 1024) / 1024}{MULTS[s]}"`:
inside the loop `t` holds the full remainder `0..1023` and the transform
`t = 10 * t / 1024` is applied exactly once after the loop; moreover if the
loop never ran (`value < 1024`) then `t` is 0 both before and after that
transform. -/
theorem iec_closed_form :
    (∀ val s, 1024 ≤ val → val < 1024 ^ 9 → 0 < s → val / 1024 ^ s < 1024 →
      (∀ k, 0 < k → k < s → ¬ (val / 1024 ^ k < 1024)) →
      iec val = some (toString (val / 1024 ^ s) ++ "." ++
        toString (10 * (val / 1024 ^ (s - 1) % 1024) / 1024) ++ MULTS_IEC.getD s "")) ∧
    (∀ w, w < 1024 → (iecLoop 0 w 0).2.2 = 0 ∧ 10 * (iecLoop 0 w 0).2.2 / 1024 = 0) := by
  constructor
  · intro val s hval hbig hs hend hleast
    have hall : ∀ k, k < s → 1024 ≤ val / 1024 ^ k := by
      intro k hk
      rcases Nat.eq_zero_or_pos k with h0 | h0
      · simpa [h0] using hval
      · exact Nat.le_of_not_lt (hleast k h0 hk)
    have hpows : 1024 ^ s ≤ val := by
      have h1 : 1024 ≤ val / 1024 ^ (s - 1) := hall (s - 1) (by omega)
      rw [Nat.le_div_iff_mul_le (by positivity)] at h1
      have hsucc : (s - 1) + 1 = s := by omega
      calc 1024 ^ s = 1024 ^ ((s - 1) + 1) := by rw [hsucc]
      _ = 1024 * 1024 ^ (s - 1) := pow_succ' 1024 (s - 1)
      _ ≤ val := h1
    have hs8 : s ≤ 8 := by
      by_contra hgt
      have : 1024 ^ 9 ≤ 1024 ^ s := Nat.pow_le_pow_right (by norm_num) (by omega)
      omega
    have hloop := iecLoop_run s 0 val 0 hall hend (by omega)
    rw [if_neg (by omega : ¬ s = 0)] at hloop
    have hloop' : iecLoop 0 val 0 = (s, val / 1024 ^ s, val / 1024 ^ (s - 1) % 1024) := by
      simpa using hloop
    rw [iec, hloop']
    simp only [MULTS_IEC_get_eq s hs8, Option.map_some']
  · intro w hw
    have hloop := iecLoop_run 0 0 w 0 (fun k hk => absurd hk (Nat.not_lt_zero k))
      (by simpa using hw) (by omega)
    have hloop' : iecLoop 0 w 0 = (0, w, 0) := by simpa using hloop
    rw [hloop']
    exact ⟨rfl, by norm_num⟩

/-- C3 witness: the formula instantiated at `value = 2200`, `s = 1`, and the
no-iteration clause at `w = 7`. -/
theorem iec_closed_form_witness :
    (iec 2200 = some (toString (2200 / 1024 ^ 1) ++ "." ++
      toString (10 * (2200 / 1024 ^ (1 - 1) % 1024) / 1024) ++ MULTS_IEC.getD 1 "")) ∧
    ((iecLoop 0 7 0).2.2 = 0 ∧ 10 * (iecLoop 0 7 0).2.2 / 1024 = 0) :=
  ⟨iec_closed_form.1 2200 1 (by norm_num) (by norm_num) (by norm_num) (by norm_num)
      (fun k hk hk1 => absurd hk (by omega)),
    iec_closed_form.2 7 (by norm_num)⟩

/-- C4: the integer-truncation boundary artifacts of `iec`, exactly as the
test vectors state them. -/
theorem iec_boundary_vectors :
    iec (1024 + 102) = some "1.0ki" ∧ iec (1024 + 103) = some "1.1ki" ∧
    iec 2097151 = some "1.9Mi" ∧ iec 2097152 = some "2.0Mi" ∧
    iec 1023 = some "1023.0" ∧ iec 1024 = some "1.0ki" ∧ iec 1025 = some "1.0ki" ∧
    iec 10240 = some "10.0ki" ∧ iec (10 * 1024 * 1024) = some "10.0Mi" := by
  refine ⟨?_, ?_, ?_, ?_, ?_, ?_, ?_, ?_, ?_⟩ <;>
    (simp [iec, iecLoop, MULTS_IEC]; try rfl)

/-- C5: the decimal boundary vectors and the large-magnitude vectors,
exactly as the test vectors state them. -/
theorem decimal_boundary_vectors :
    decimal 999 = some "999.0" ∧ decimal 1000 = some "1.0k" ∧
    decimal 1001 = some "1.0k" ∧ decimal 1100 = some "1.1k" ∧
    decimal 10000 = some "10.0k" ∧ decimal 10000000 = some "10.0M" ∧
    decimal 1000000000000000000000000 = some "1.0Y" ∧
    iec 1208925819614629174706176 = some "1.0Yi" := by
  refine ⟨?_, ?_, ?_, ?_, ?_, ?_, ?_, ?_⟩ <;>
    (simp [decimal, decimalLoop, iec, iecLoop, MULTS, MULTS_IEC]; try rfl)

/-- C6: below the divisor the loop body never runs, so the scale step and
the fractional digit stay 0: `decimal v = "{v}.0"` for `v < 1000` and
`iec v = "{v}.0"` for `v < 1024`, with the empty suffix. -/
theorem small_values_format (v : Nat) :
    (v < 1000 → decimal v = some (toString v ++ ".0")) ∧
    (v < 1024 → iec v = some (toString v ++ ".0")) := by
  constructor
  · intro hv
    have hloop := decimalLoop_run 0 0 v 0 (fun k hk => absurd hk (Nat.not_lt_zero k))
      (by simpa using hv) (by omega)
    have hloop' : decimalLoop 0 v 0 = (0, v, 0) := by simpa using hloop
    rw [decimal, hloop']
    show some (toString v ++ "." ++ toString (0 : Nat) ++ "") = some (toString v ++ ".0")
    exact congrArg some (str_frac_zero (toString v))
  · intro hv
    have hloop := iecLoop_run 0 0 v 0 (fun k hk => absurd hk (Nat.not_lt_zero k))
      (by simpa using hv) (by omega)
    have hloop' : iecLoop 0 v 0 = (0, v, 0) := by simpa using hloop
    rw [iec, hloop']
    show some (toString v ++ "." ++ toString (10 * 0 / 1024) ++ "") = some (toString v ++ ".0")
    exact congrArg some (str_frac_zero (toString v))

/-- C6 witness: the theorem instantiated at `v = 7`. -/
theorem small_values_format_witness :
    decimal 7 = some (toString 7 ++ ".0") ∧ iec 7 = some (toString 7 ++ ".0") :=
  ⟨(small_values_format 7).1 (by norm_num), (small_values_format 7).2 (by norm_num)⟩

/-- C7: monotonicity of the integer part within a scale step: if `v1 < v2`
end the loop on the same scale step (hence the same suffix), the printed
integer part of `v1` is at most that of `v2`, for both formatters. -/
theorem intPart_monotone :
    (∀ v1 v2, v1 < v2 → stepDec v1 = stepDec v2 → intDec v1 ≤ intDec v2) ∧
    (∀ v1 v2, v1 < v2 → stepIec v1 = stepIec v2 → intIec v1 ≤ intIec v2) := by
  constructor
  · intro v1 v2 hlt hstep
    have h1 := (decimalLoop_v 0 v1 0).2
    have h2 := (decimalLoop_v 0 v2 0).2
    simp only [stepDec] at hstep
    simp only [intDec, h1, h2, Nat.sub_zero, hstep]
    exact Nat.div_le_div_right (le_of_lt hlt)
  · intro v1 v2 hlt hstep
    have h1 := (iecLoop_v 0 v1 0).2
    have h2 := (iecLoop_v 0 v2 0).2
    simp only [stepIec] at hstep
    simp only [intIec, h1, h2, Nat.sub_zero, hstep]
    exact Nat.div_le_div_right (le_of_lt hlt)

/-- C7 witness: the theorem instantiated at `2000 < 2500` (both on decimal
scale step 1) and at `2048 < 3000` (both on IEC scale step 1). -/
theorem intPart_monotone_witness :
    (2000 < 2500 ∧ stepDec 2000 = stepDec 2500 ∧ intDec 2000 ≤ intDec 2500) ∧
    (2048 < 3000 ∧ stepIec 2048 = stepIec 3000 ∧ intIec 2048 ≤ intIec 3000) :=
  ⟨⟨by norm_num, by simp [stepDec, decimalLoop, MULTS],
      intPart_monotone.1 2000 2500 (by norm_num) (by simp [stepDec, decimalLoop, MULTS])⟩,
    ⟨by norm_num, by simp [stepIec, iecLoop, MULTS_IEC],
      intPart_monotone.2 2048 3000 (by norm_num) (by simp [stepIec, iecLoop, MULTS_IEC])⟩⟩

/-- C8: for every u128 input, both loops terminate in a terminal state (the
guard is false at the result) after at most 9 iterations — the scale step
starts at 0 and increments exactly once per iteration, so the final step
count is the iteration count. -/
theorem loop_iteration_bound (val : Nat) (h : val < 2 ^ 128) :
    (decimalLoop 0 val 0).1 ≤ 9 ∧
    ¬ (1000 ≤ (decimalLoop 0 val 0).2.1 ∧ (decimalLoop 0 val 0).1 < MULTS.length) ∧
    (iecLoop 0 val 0).1 ≤ 9 ∧
    ¬ (1024 ≤ (iecLoop 0 val 0).2.1 ∧ (iecLoop 0 val 0).1 < MULTS_IEC.length) :=
  ⟨decimalLoop_le9 0 val 0 (by norm_num), decimalLoop_post 0 val 0,
    iecLoop_le9 0 val 0 (by norm_num), iecLoop_post 0 val 0⟩

/-- C8 witness: the theorem instantiated at `val = 42`. -/
theorem loop_iteration_bound_witness :
    (decimalLoop 0 42 0).1 ≤ 9 ∧
    ¬ (1000 ≤ (decimalLoop 0 42 0).2.1 ∧ (decimalLoop 0 42 0).1 < MULTS.length) ∧
    (iecLoop 0 42 0).1 ≤ 9 ∧
    ¬ (1024 ≤ (iecLoop 0 42 0).2.1 ∧ (iecLoop 0 42 0).1 < MULTS_IEC.length) :=
  loop_iteration_bound 42 (by norm_num)

/-- C9: for every value below `1000^9` the final decimal scale index is at
most 8, so `MULTS[s]` is in bounds and `decimal` returns normally; likewise
for `iec` below `1024^9`. -/
theorem index_in_bounds (val : Nat) :
    (val < 1000 ^ 9 → stepDec val ≤ 8 ∧ (decimal val).isSome) ∧
    (val < 1024 ^ 9 → stepIec val ≤ 8 ∧ (iec val).isSome) := by
  constructor
  · intro h
    refine ⟨(decimal_bundle val h).1, ?_⟩
    rw [(decimal_bundle val h).2.2.2]
    rfl
  · intro h
    refine ⟨(iec_bundle val h).1, ?_⟩
    rw [(iec_bundle val h).2.2.2.2]
    rfl

/-- C9 witness: the theorem instantiated at `val = 123456`. -/
theorem index_in_bounds_witness :
    (stepDec 123456 ≤ 8 ∧ (decimal 123456).isSome) ∧
    (stepIec 123456 ≤ 8 ∧ (iec 123456).isSome) :=
  ⟨(index_in_bounds 123456).1 (by norm_num), (index_in_bounds 123456).2 (by norm_num)⟩

/-- C10: well-formedness of the output for in-range inputs: `decimal` prints
an integer part of at most 999 and a single fractional digit `0..9`, `iec`
an integer part of at most 1023 and a single fractional digit `0..9`, and
the returned string is exactly `"{integer}.{digit}{suffix}"`. -/
theorem output_shape_invariant (val : Nat) :
    (val < 1000 ^ 9 → intDec val ≤ 999 ∧ fracDec val ≤ 9 ∧
      decimal val = some (toString (intDec val) ++ "." ++ toString (fracDec val) ++
        MULTS.getD (stepDec val) "")) ∧
    (val < 1024 ^ 9 → intIec val ≤ 1023 ∧ fracIec val ≤ 9 ∧
      iec val = some (toString (intIec val) ++ "." ++ toString (fracIec val) ++
        MULTS_IEC.getD (stepIec val) "")) := by
  constructor
  · intro h
    exact ⟨(decimal_bundle val h).2.1, (decimal_bundle val h).2.2.1, (decimal_bundle val h).2.2.2⟩
  · intro h
    exact ⟨(iec_bundle val h).2.1, (iec_bundle val h).2.2.2.1, (iec_bundle val h).2.2.2.2⟩

/-- C10 witness: the theorem instantiated at `val = 987654`. -/
theorem output_shape_invariant_witness :
    (intDec 987654 ≤ 999 ∧ fracDec 987654 ≤ 9 ∧
      decimal 987654 = some (toString (intDec 987654) ++ "." ++ toString (fracDec 987654) ++
        MULTS.getD (stepDec 987654) "")) ∧
    (intIec 987654 ≤ 1023 ∧ fracIec 987654 ≤ 9 ∧
      iec 987654 = some (toString (intIec 987654) ++ "." ++ toString (fracIec 987654) ++
        MULTS_IEC.getD (stepIec 987654) "")) :=
  ⟨(output_shape_invariant 987654).1 (by norm_num),
    (output_shape_invariant 987654).2 (by norm_num)⟩

end PakrIec
